import Mathlib

/-!
# Verification of the turborepo file-query and TUI-preferences modules

Shallow embedding of `crates/turborepo-lib/src/query/file.rs` and
`crates/turborepo-ui/src/tui/preferences.rs`, together with models — taken
from the spec — of repository code those files call that lives outside them
(package graph and change-mapper internals, the tracer's result shape, and
the serde serialization layer).

Modelling conventions:
* Rust string and path text is Lean `String`; character-level helpers work
  on `List Char` so that every definition reduces in the kernel.
* The file-system paths consumed by the change mapper are represented as
  lists of path components; the paths in trace results are plain strings.
* Fallible Rust functions return `Except` or `Option`.
-/

deriving instance DecidableEq for Except

namespace Turbo

/-- The characters of a string; all character-level reasoning happens on
`List Char`. -/
def chars (s : String) : List Char := s.data

/-- Lexicographic order on character lists by code point (the model of
Rust's byte-lexicographic `Ord` used by the `sorted_by` comparators). -/
def listLeb : List Char → List Char → Bool
  | [], _ => true
  | _ :: _, [] => false
  | a :: as, b :: bs =>
    if a.toNat < b.toNat then true
    else if b.toNat < a.toNat then false
    else listLeb as bs

/-- String comparison `a <= b` as a boolean. -/
def strLeb (a b : String) : Bool := listLeb (chars a) (chars b)

/-- String comparison as a relation. -/
def strLe (a b : String) : Prop := strLeb a b = true

/-- Strict string order: `a` before `b` and distinct. -/
def strLt (a b : String) : Prop := strLe a b ∧ a ≠ b

instance : DecidableRel strLe := fun a b => inferInstanceAs (Decidable (strLeb a b = true))

instance : DecidableRel strLt := fun a b => inferInstanceAs (Decidable (strLe a b ∧ a ≠ b))

/-- Insert into a sorted list, keeping entries ordered by `le` (the
insertion step of the model of itertools `sorted_by`). -/
def orderedInsert {α : Type} (le : α → α → Bool) (a : α) : List α → List α
  | [] => [a]
  | b :: l => if le a b then a :: b :: l else b :: orderedInsert le a l

/-- Insertion sort by a boolean comparator: the model of the itertools
`sorted_by` calls of file.rs. -/
def sortBy {α : Type} (le : α → α → Bool) : List α → List α
  | [] => []
  | a :: l => orderedInsert le a (sortBy le l)

/-- Split a character list on a separator character (used to model the
component and extension structure of paths). -/
def splitOnChar (sep : Char) : List Char → List (List Char)
  | [] => [[]]
  | c :: cs =>
    match splitOnChar sep cs with
    | [] => [[c]]
    | r :: rs => if c == sep then [] :: r :: rs else (c :: r) :: rs

/-- The last `/`-separated component of a path (the file name). -/
def fileNameOf (path : String) : List Char :=
  (splitOnChar '/' (chars path)).getLastD []

/-- Model of `camino::Utf8Path::extension` as exposed by turbopath's
`AbsoluteSystemPath::extension`: the text after the last dot of the file
name, provided that dot is not the file name's first character. -/
def extension (path : String) : Option String :=
  match splitOnChar '.' (fileNameOf path) with
  | [] => none
  | [_] => none
  | p0 :: p1 :: ps =>
    if p0 = [] ∧ ps = [] then none
    else some ⟨(p1 :: ps).getLastD []⟩

/-- Model of turbopath `AbsoluteSystemPath::ends_with`, a string-suffix
test on the path's text. -/
def ends_with (path suffix : String) : Bool :=
  (chars suffix).isSuffixOf (chars path)

/-- The parser dialect selected by `File::parse_file`, recording the
fields of the swc TypeScript / ECMAScript configurations the source sets
(`tsx` and `decorators`, respectively `jsx`). -/
inductive Dialect where
  | typescript (tsx : Bool) (decorators : Bool)
  | es (jsx : Bool)
deriving DecidableEq

/-- The dialect-selection expression of `File::parse_file`
(file.rs lines 48-60). -/
def File.parse_file_dialect (path : String) : Dialect :=
  if extension path == some "ts" || extension path == some "tsx" then
    .typescript (extension path == some "tsx") true
  else
    .es (ends_with path ".jsx")

/-- Glob-pattern tokens: literal characters and the `*` wildcard. -/
inductive GlobToken where
  | lit (c : Char)
  | star
deriving DecidableEq

/-- Modelled from the spec: compiling one global-dependency pattern, which
can fail on invalid pattern syntax. The model is a minimal glob language:
`*` is a wildcard, every other character is a literal, and bracket classes
are rejected as invalid syntax. -/
def compileGlob : List Char → Option (List GlobToken)
  | [] => some []
  | c :: rest =>
    if c == '[' then none
    else (compileGlob rest).map fun ts => (if c == '*' then .star else .lit c) :: ts

/-- Fuel-bounded glob matching; `*` matches any (possibly empty) sequence
of characters. Each recursive call shrinks the combined size of pattern
and text, so `matchGlob` below always supplies enough fuel. -/
def matchGlobFuel : Nat → List GlobToken → List Char → Bool
  | 0, _, _ => false
  | _ + 1, [], cs => cs.isEmpty
  | _ + 1, .lit _ :: _, [] => false
  | n + 1, .lit c :: ts, d :: ds => c == d && matchGlobFuel n ts ds
  | n + 1, .star :: ts, [] => matchGlobFuel n ts []
  | n + 1, .star :: ts, d :: ds =>
    matchGlobFuel n ts (d :: ds) || matchGlobFuel n (.star :: ts) ds

/-- Glob matching with adequate fuel. -/
def matchGlob (ts : List GlobToken) (cs : List Char) : Bool :=
  matchGlobFuel (ts.length + cs.length + 1) ts cs

/-- Modelled from the spec: one workspace package — its name and its
workspace directory (as path components under the repository root). -/
structure PackageInfo where
  name : String
  dir : List String
deriving DecidableEq

/-- Modelled from the spec: the package graph. Nodes are the workspace
packages; a directed edge `(a, b)` says package `a` depends on package
`b`. -/
structure PackageGraph where
  packages : List PackageInfo
  edges : List (String × String)
deriving DecidableEq

/-- `PackageGraph::len`: the total number of packages in the graph. -/
def PackageGraph.len (g : PackageGraph) : Nat := g.packages.length

/-- The package names of the graph, in declaration order (the keys of the
`packages()` iterator). -/
def PackageGraph.names (g : PackageGraph) : List String :=
  g.packages.map PackageInfo.name

/-- One dependency edge as a step relation: `a` directly depends on `b`. -/
def edgeStep (g : PackageGraph) (a b : String) : Prop := (a, b) ∈ g.edges

/-- `a` has a directed path to `b` in the package graph, i.e. `a`
transitively depends on `b`; the transitive *dependents* of `p` are the
packages `q` with `Reaches g q p`. -/
def Reaches (g : PackageGraph) (a b : String) : Prop :=
  Relation.ReflTransGen (edgeStep g) a b

/-- Fuel-bounded reachability: a path of length at most `n` from `q` to
`p` along dependency edges. -/
def reachesFuel (g : PackageGraph) : Nat → String → String → Bool
  | 0, q, p => q == p
  | n + 1, q, p =>
    q == p || g.edges.any fun e => e.1 == q && reachesFuel g n e.2 p

/-- The edge targets already known to reach `p` within fuel `n`; used to
show that `reachesFuel` stabilizes after at most `edges.length` rounds. -/
def frontier (g : PackageGraph) (p : String) (n : Nat) : List String :=
  (g.edges.map Prod.snd).filter fun t => reachesFuel g n t p

/-- Modelled from the spec: `PackageGraph::ancestors` — the transitive
dependents of `p`, i.e. every package of the graph with a directed path to
`p`'s node, the package itself excluded. -/
def PackageGraph.ancestors (g : PackageGraph) (p : String) : List String :=
  g.names.filter fun q => q != p && reachesFuel g (g.edges.length + 1) q p

/-- The reason a file was classified as affecting all packages. -/
inductive PackageChangeReason where
  | globalDepsChanged
deriving DecidableEq

/-- Modelled from the spec: the repository-level mapping returned by the
change mapper's `detect_package` (variants `All`, `Package`, `None`). -/
inductive RepoPackageMapping where
  | All (reason : PackageChangeReason)
  | Package (name : String)
  | None
deriving DecidableEq

/-- The error surfaced by `File::get_package`: construction of the
global-dependency matcher rejected a pattern. -/
inductive QueryError where
  | invalidPattern (p : String)
deriving DecidableEq

/-- Modelled from the spec: `GlobalDepsPackageChangeMapper::new` compiles
the configured global-dependency patterns and fails on the first
syntactically invalid one. -/
def GlobalDepsPackageChangeMapper.new : List String → Except QueryError (List (List GlobToken))
  | [] => .ok []
  | p :: ps =>
    match compileGlob (chars p) with
    | none => .error (.invalidPattern p)
    | some g =>
      match GlobalDepsPackageChangeMapper.new ps with
      | .error e => .error e
      | .ok gs => .ok (g :: gs)

/-- The change-mapper instance: the package graph plus the compiled
global-dependency globs. -/
structure ChangeMapper where
  graph : PackageGraph
  globs : List (List GlobToken)
deriving DecidableEq

/-- Modelled from the spec: package attribution (classification Step 3) —
the package whose workspace directory is the longest path-prefix ancestor
of the anchored path, if any. -/
def detectPackageByPrefix (packages : List PackageInfo) (anchored : List String) :
    Option PackageInfo :=
  packages.foldl
    (fun best p =>
      if p.dir.isPrefixOf anchored then
        match best with
        | none => some p
        | some b => if b.dir.length < p.dir.length then some p else some b
      else best)
    none

/-- Render anchored path components as the text the glob patterns are
matched against. -/
def joinComponents : List String → List Char
  | [] => []
  | [s] => chars s
  | s :: rest => chars s ++ '/' :: joinComponents rest

/-- Modelled from the spec: classification Steps 2-3 — a global-dependency
match yields `All`, otherwise longest-prefix package attribution, otherwise
no mapping. -/
def ChangeMapper.detect_package (cm : ChangeMapper) (anchored : List String) :
    RepoPackageMapping :=
  if cm.globs.any fun g => matchGlob g (joinComponents anchored) then
    .All .globalDepsChanged
  else
    match detectPackageByPrefix cm.graph.packages anchored with
    | some p => .Package p.name
    | none => .None

/-- The per-run state `File::get_package` consults: the repository root,
the package graph and the configured global dependencies from the root
turbo.json. -/
structure Run where
  repo_root : List String
  pkg_dep_graph : PackageGraph
  global_deps : List String
deriving DecidableEq

/-- Construction of the change mapper performed at the top of
`File::get_package` (file.rs lines 156-167); only the compilation of the
global-dependency patterns can fail. -/
def File.mkChangeMapper (run : Run) : Except QueryError ChangeMapper :=
  match GlobalDepsPackageChangeMapper.new run.global_deps with
  | .error e => .error e
  | .ok globs => .ok ⟨run.pkg_dep_graph, globs⟩

/-- Modelled from the spec: `AbsoluteSystemPath::anchor` — expressing a
file path relative to the repository root, failing exactly when the file is
not under the root. -/
def anchor (root path : List String) : Option (List String) :=
  if root.isPrefixOf path then some (path.drop root.length) else none

/-- The query-layer `PackageMapping` union: `All` additionally carries the
total package count. -/
inductive PackageMapping where
  | All (reason : PackageChangeReason) (count : Nat)
  | Package (name : String)
deriving DecidableEq

/-- `File::get_package` (file.rs lines 155-193). -/
def File.get_package (run : Run) (path : List String) :
    Except QueryError (Option PackageMapping) :=
  match File.mkChangeMapper run with
  | .error e => .error e
  | .ok change_mapper =>
    match anchor run.repo_root path with
    | none => .ok none
    | some anchored_path =>
      match change_mapper.detect_package anchored_path with
      | .All reason => .ok (some (.All reason run.pkg_dep_graph.len))
      | .Package name => .ok (some (.Package name))
      | .None => .ok none

/-- `File::affected_packages` (file.rs lines 221-255), returning the
affected package names (the source wraps each name into a `Package`
object carrying the run handle). -/
def File.affected_packages (run : Run) (path : List String) :
    Except QueryError (List String) :=
  match File.get_package run path with
  | .ok (some (.All _ _)) =>
    .ok (sortBy strLeb run.pkg_dep_graph.names)
  | .ok (some (.Package name)) =>
    .ok (sortBy strLeb (run.pkg_dep_graph.ancestors name ++ [name]))
  | .ok none => .ok []
  | .error e => .error e

/-- The query-layer `File` object: an absolute path plus an optional
parsed AST (the `run` handle is not part of the model, and the AST type is
a parameter). -/
structure File (Ast : Type) where
  path : String
  ast : Option Ast
deriving DecidableEq

/-- `File::new` (without the run handle). -/
def File.new {Ast : Type} (path : String) : File Ast := ⟨path, none⟩

/-- `File::with_ast`. -/
def File.with_ast {Ast : Type} (f : File Ast) (ast : Option Ast) : File Ast :=
  ⟨f.path, ast⟩

/-- A miette named source: a source name plus its full text. -/
structure NamedSource where
  name : String
  content : String
deriving DecidableEq

/-- Modelled from the spec: `turbo_trace::TraceError` (spec section 3);
`resolve` keeps the source and the byte span (offset and length) of the
offending import. -/
inductive SrcTraceError where
  | fileNotFound (path : String)
  | pathEncoding
  | rootFile (path : String)
  | resolve (text : NamedSource) (offset len : Nat)
deriving DecidableEq

/-- Modelled from the spec: each trace error carries a human-readable
message derived from its variant and fields (the Display implementation of
`turbo_trace::TraceError`). -/
def SrcTraceError.render_message : SrcTraceError → String
  | .fileNotFound path => "file not found: " ++ path
  | .pathEncoding => "path could not be represented as valid text"
  | .rootFile path => "path is outside the repository root: " ++ path
  | .resolve text _ _ => "failed to resolve import in " ++ text.name

/-- Modelled from the miette interface: recover the source text at a byte
span, failing when the span exceeds the source (context lines omitted). -/
def read_span (content : String) (offset len : Nat) : Option String :=
  if offset + len ≤ (chars content).length then
    some ⟨((chars content).drop offset).take len⟩
  else none

/-- The query-layer `TraceError` object; the source's `import` and `end`
fields are called `import_text` and `end_` here. -/
structure TraceError where
  message : String
  path : Option String
  import_text : Option String
  start : Option Nat
  end_ : Option Nat
deriving DecidableEq

/-- `TraceError::default()`. -/
def TraceError.default : TraceError := ⟨"", none, none, none, none⟩

/-- The `From` conversion from `turbo_trace::TraceError` to the
query-layer `TraceError` (file.rs lines 85-120). -/
def TraceError.from_src (error : SrcTraceError) : TraceError :=
  let message := error.render_message
  match error with
  | .fileNotFound file =>
    { TraceError.default with message := message, path := some file }
  | .pathEncoding =>
    { TraceError.default with message := message }
  | .rootFile path =>
    { TraceError.default with message := message, path := some path }
  | .resolve text offset len =>
    { message := message
      path := some text.name
      import_text := read_span text.content offset len
      start := some offset
      end_ := some (offset + len) }

/-- Modelled from the spec: `turbo_trace::TraceResult` — a map from
absolute file path to the traced file's optional AST, plus the accumulated
errors. -/
structure SrcTraceResult (Ast : Type) where
  files : List (String × Option Ast)
  errors : List SrcTraceError
deriving DecidableEq

/-- The query-layer `TraceResult`. -/
structure TraceResult (Ast : Type) where
  files : List (File Ast)
  errors : List TraceError
deriving DecidableEq

/-- The comparator passed to `sorted_by` in `TraceResult::new`: compare
map entries by their path keys. -/
def keyLeb {α : Type} (a b : String × α) : Bool := strLeb a.1 b.1

/-- `TraceResult::new` (file.rs lines 128-140): sort the file map's entries
ascending by path, wrap them into `File` objects and convert the errors. -/
def TraceResult.new {Ast : Type} (result : SrcTraceResult Ast) : TraceResult Ast :=
  { files :=
      (sortBy keyLeb result.files).map fun pf => (File.new pf.1).with_ast pf.2
    errors := result.errors.map TraceError.from_src }

/-- `File::dependencies` (file.rs lines 257-278). The tracer's raw result
is taken as an argument (the tracer lives outside the modelled file); the
seed file itself is removed from the map before wrapping, which models
`result.files.remove` on the path-keyed map. -/
def File.dependencies {Ast : Type} (path : String) (trace_output : SrcTraceResult Ast) :
    TraceResult Ast :=
  let result : SrcTraceResult Ast :=
    { trace_output with files := trace_output.files.filter fun kv => kv.1 != path }
  TraceResult.new result

/-- serde_json `Value`. -/
inductive Json where
  | null
  | bool (b : Bool)
  | num (n : Int)
  | str (s : String)
  | arr (elems : List Json)
  | obj (fields : List (String × Json))

/-- Look a key up in a JSON object's field list. -/
def lookupField : List (String × Json) → String → Option Json
  | [], _ => none
  | kv :: rest, key => if kv.1 == key then some kv.2 else lookupField rest key

/-- Modelled from the serde derive for `Preferences`: an optional boolean
field — absent or null gives `none`, a boolean gives its value, any other
shape is a deserialization error. -/
def decodeOptBool : Option Json → Option (Option Bool)
  | none => some none
  | some .null => some none
  | some (.bool b) => some (some b)
  | some _ => none

/-- Modelled from the serde derive for `Preferences`: an optional string
field. -/
def decodeOptString : Option Json → Option (Option String)
  | none => some none
  | some .null => some none
  | some (.str s) => some (some s)
  | some _ => none

/-- The `Preferences` struct (preferences.rs lines 12-17). -/
structure Preferences where
  is_task_list_visible : Option Bool
  active_task : Option String
  is_pinned_task_selection : Option Bool
deriving DecidableEq

/-- The `Default` implementation for `Preferences`
(preferences.rs lines 26-34). -/
def Preferences.default : Preferences :=
  { active_task := none
    is_task_list_visible := some true
    is_pinned_task_selection := some false }

/-- Modelled from the serde derive: deserializing a JSON value into the
`Preferences` shape; anything but an object is an error, unknown keys are
ignored. -/
def decodePreferences (j : Json) : Option Preferences :=
  match j with
  | .obj fields =>
    match decodeOptBool (lookupField fields "is_task_list_visible"),
          decodeOptString (lookupField fields "active_task"),
          decodeOptBool (lookupField fields "is_pinned_task_selection") with
    | some v, some a, some p => some ⟨v, a, p⟩
    | _, _, _ => none
  | _ => none

/-- `read_json` (preferences.rs lines 38-43). The preferences file's state
is modelled as `Option Json`: `none` covers a missing or unreadable file as
well as text that does not parse, `some j` a file whose text parses to
`j`; a value of the wrong shape falls back to the default, exactly as the
source's chained `ok()` calls do. -/
def read_json (content : Option Json) : Preferences :=
  match content with
  | none => Preferences.default
  | some j =>
    match decodePreferences j with
    | none => Preferences.default
    | some p => p

/-- `Preferences::read_pinned_task_state` (preferences.rs lines 85-91). -/
def Preferences.read_pinned_task_state (content : Option Json) : Bool :=
  (read_json content).is_pinned_task_selection.getD false

/-- `Preferences::read_task_list_visibility` (preferences.rs lines 93-99). -/
def Preferences.read_task_list_visibility (content : Option Json) : Bool :=
  (read_json content).is_task_list_visible.getD true

/-- The active-task read performed inside
`Preferences::get_selected_task_index` (preferences.rs lines 105-109). -/
def Preferences.read_active_task (content : Option Json) : String :=
  (read_json content).active_task.getD ""

/-- Replace a key's entry in place when present, append it otherwise (the
map update behind serde_json index assignment on an object). -/
def setField (fields : List (String × Json)) (key : String) (v : Json) :
    List (String × Json) :=
  if fields.any fun kv => kv.1 == key then
    fields.map fun kv => if kv.1 == key then (key, v) else kv
  else fields ++ [(key, v)]

/-- Modelled from serde_json index assignment: on an object the key is
set, null becomes a fresh single-field object, and any other value makes
the source abort (modelled as `none`). -/
def Json.setKey : Json → String → Json → Option Json
  | .obj fields, key, v => some (.obj (setField fields key v))
  | .null, key, v => some (.obj [(key, v)])
  | _, _, _ => none

/-- The `PreferenceFields` enum (preferences.rs lines 20-24). -/
inductive PreferenceFields where
  | IsTaskListVisible
  | ActiveTask
  | PinnedTaskSelection
deriving DecidableEq

/-- The JSON key each `PreferenceFields` variant assigns, read off the
match in `update_preference` (preferences.rs lines 65-75). -/
def PreferenceFields.key : PreferenceFields → String
  | .IsTaskListVisible => "is_task_list_visible"
  | .ActiveTask => "active_task"
  | .PinnedTaskSelection => "is_pinned_task_selection"

/-- `Preferences::update_preference` (preferences.rs lines 46-83) at the
JSON level: `existing` is the parsed content of the preferences file
(`none` when the file does not exist, in which case the source starts from
an empty object); directory creation, the parse of the existing text and
serialization back to text are I/O steps outside this model. -/
def Preferences.update_preference (existing : Option Json) (field : PreferenceFields)
    (new_value : Json) : Option Json :=
  let json :=
    match existing with
    | none => Json.obj []
    | some j => j
  match field with
  | .IsTaskListVisible => json.setKey "is_task_list_visible" new_value
  | .ActiveTask => json.setKey "active_task" new_value
  | .PinnedTaskSelection => json.setKey "is_pinned_task_selection" new_value

/-- Example package graph for the concrete checks: `b` depends on `a` and
`c` depends on `b`, so `a`'s transitive dependents are `b` and `c`. -/
def exGraph : PackageGraph :=
  ⟨[⟨"a", ["pkgs", "a"]⟩, ⟨"b", ["pkgs", "b"]⟩, ⟨"c", ["pkgs", "c"]⟩],
   [("b", "a"), ("c", "b")]⟩

/-- Example run with no global dependencies. -/
def exRun : Run := ⟨["repo"], exGraph, []⟩

/-- Example run whose single global-dependency pattern matches every file. -/
def exRunGlob : Run := ⟨["repo"], exGraph, ["*"]⟩

/-- Example raw trace result over `Nat` ASTs. -/
def exTrace : SrcTraceResult Nat := ⟨[("b.ts", some 1), ("a.ts", none)], []⟩

/-- Combine two pairwise facts pointwise. -/
theorem pairwise_and' {α : Type} {R S : α → α → Prop} :
    ∀ {l : List α}, l.Pairwise R → l.Pairwise S → l.Pairwise fun a b => R a b ∧ S a b
  | [], _, _ => List.Pairwise.nil
  | _ :: _, hr, hs => by
    rcases List.pairwise_cons.mp hr with ⟨hr1, hr2⟩
    rcases List.pairwise_cons.mp hs with ⟨hs1, hs2⟩
    exact List.Pairwise.cons (fun x hx => ⟨hr1 x hx, hs1 x hx⟩) (pairwise_and' hr2 hs2)

/-- `any` only depends on the predicate's values on the list. -/
theorem any_congr_mem {α : Type} {l : List α} {f g : α → Bool}
    (h : ∀ x ∈ l, f x = g x) : l.any f = l.any g := by
  induction l with
  | nil => rfl
  | cons a l ih =>
    simp only [List.any_cons]
    rw [h a (List.mem_cons_self a l), ih fun x hx => h x (List.mem_cons_of_mem a hx)]

/-- If a pointwise-weaker predicate produces the same filtered list, the two
predicates agree on the list. -/
theorem filter_eq_pred_eq {α : Type} :
    ∀ (l : List α) (f g : α → Bool), (∀ x ∈ l, f x = true → g x = true) →
      l.filter f = l.filter g → ∀ x ∈ l, f x = g x := by
  intro l
  induction l with
  | nil => intro f g _ _ x hx; exact absurd hx (List.not_mem_nil x)
  | cons a l ih =>
    intro f g hmono heq x hx
    by_cases hfa : f a = true
    · have hga : g a = true := hmono a (List.mem_cons_self a l) hfa
      rw [List.filter_cons_of_pos hfa, List.filter_cons_of_pos hga] at heq
      injection heq with _ heq2
      rcases List.mem_cons.mp hx with rfl | hx2
      · rw [hfa, hga]
      · exact ih f g (fun y hy => hmono y (List.mem_cons_of_mem a hy)) heq2 x hx2
    · by_cases hga : g a = true
      · rw [List.filter_cons_of_neg hfa, List.filter_cons_of_pos hga] at heq
        have ha : a ∈ l.filter f := heq ▸ List.mem_cons_self a _
        exact absurd (List.of_mem_filter ha) hfa
      · rw [List.filter_cons_of_neg hfa, List.filter_cons_of_neg hga] at heq
        rcases List.mem_cons.mp hx with rfl | hx2
        · cases hfx : f x with
          | true => exact absurd hfx hfa
          | false =>
            cases hgx : g x with
            | true => exact absurd hgx hga
            | false => rfl
        · exact ih f g (fun y hy => hmono y (List.mem_cons_of_mem a hy)) heq x hx2

/-- Unfolding lemma for the head comparison of `listLeb`. -/
theorem listLeb_cons_iff {a b : Char} {as bs : List Char} :
    listLeb (a :: as) (b :: bs) = true ↔
      a.toNat < b.toNat ∨ (a.toNat = b.toNat ∧ listLeb as bs = true) := by
  simp only [listLeb]
  by_cases h1 : a.toNat < b.toNat
  · simp [h1]
  · by_cases h2 : b.toNat < a.toNat
    · rw [if_neg h1, if_pos h2]
      constructor
      · intro h; simp at h
      · rintro (h | ⟨h, _⟩) <;> omega
    · rw [if_neg h1, if_neg h2]
      have h3 : a.toNat = b.toNat := by omega
      simp [h3]

/-- Transitivity of the character-list order. -/
theorem listLeb_trans : ∀ as bs cs, listLeb as bs = true → listLeb bs cs = true →
    listLeb as cs = true
  | [], _, _, _, _ => rfl
  | _ :: _, [], _, h1, _ => by simp [listLeb] at h1
  | _ :: _, _ :: _, [], _, h2 => by simp [listLeb] at h2
  | a :: as, b :: bs, c :: cs, h1, h2 => by
    rw [listLeb_cons_iff] at h1 h2 ⊢
    rcases h1 with h1 | ⟨h1e, h1t⟩
    · rcases h2 with h2 | ⟨h2e, _⟩
      · exact Or.inl (by omega)
      · exact Or.inl (by omega)
    · rcases h2 with h2 | ⟨h2e, h2t⟩
      · exact Or.inl (by omega)
      · exact Or.inr ⟨by omega, listLeb_trans as bs cs h1t h2t⟩

/-- Totality of the character-list order. -/
theorem listLeb_total : ∀ as bs, listLeb as bs = true ∨ listLeb bs as = true
  | [], _ => Or.inl rfl
  | _ :: _, [] => Or.inr rfl
  | a :: as, b :: bs => by
    rw [listLeb_cons_iff, listLeb_cons_iff]
    rcases Nat.lt_trichotomy a.toNat b.toNat with h | h | h
    · exact Or.inl (Or.inl h)
    · rcases listLeb_total as bs with ht | ht
      · exact Or.inl (Or.inr ⟨h, ht⟩)
      · exact Or.inr (Or.inr ⟨h.symm, ht⟩)
    · exact Or.inr (Or.inl h)

/-- Totality of the string order. -/
theorem strLeb_total (a b : String) : strLeb a b = true ∨ strLeb b a = true :=
  listLeb_total _ _

/-- Transitivity of the string order. -/
theorem strLeb_trans (a b c : String) (h1 : strLeb a b = true) (h2 : strLeb b c = true) :
    strLeb a c = true :=
  listLeb_trans _ _ _ h1 h2

/-- `orderedInsert` permutes the inserted element to the front. -/
theorem perm_orderedInsert {α : Type} (le : α → α → Bool) (a : α) :
    ∀ l : List α, List.Perm (orderedInsert le a l) (a :: l)
  | [] => List.Perm.refl _
  | b :: l => by
    unfold orderedInsert
    by_cases h : le a b = true
    · rw [if_pos h]
    · rw [if_neg h]
      exact ((perm_orderedInsert le a l).cons b).trans (List.Perm.swap a b l)

/-- `sortBy` is a permutation of its input. -/
theorem perm_sortBy {α : Type} (le : α → α → Bool) :
    ∀ l : List α, List.Perm (sortBy le l) l
  | [] => List.Perm.refl _
  | a :: l => (perm_orderedInsert le a (sortBy le l)).trans ((perm_sortBy le l).cons a)

/-- Inserting into a `le`-sorted list keeps it sorted, for any total and
transitive comparator. -/
theorem sorted_orderedInsert {α : Type} (le : α → α → Bool)
    (htot : ∀ x y, le x y = true ∨ le y x = true)
    (htrans : ∀ x y z, le x y = true → le y z = true → le x z = true)
    (a : α) : ∀ l : List α, l.Pairwise (fun x y => le x y = true) →
      (orderedInsert le a l).Pairwise fun x y => le x y = true
  | [], _ => by simp [orderedInsert]
  | b :: l, h => by
    rcases List.pairwise_cons.mp h with ⟨hb, hl⟩
    unfold orderedInsert
    by_cases hab : le a b = true
    · rw [if_pos hab]
      refine List.Pairwise.cons ?_ h
      intro x hx
      rcases List.mem_cons.mp hx with rfl | hx2
      · exact hab
      · exact htrans a b x hab (hb x hx2)
    · rw [if_neg hab]
      have hba : le b a = true := (htot a b).resolve_left hab
      refine List.Pairwise.cons ?_ (sorted_orderedInsert le htot htrans a l hl)
      intro x hx
      have hx' : x ∈ a :: l := (perm_orderedInsert le a l).subset hx
      rcases List.mem_cons.mp hx' with rfl | hx2
      · exact hba
      · exact hb x hx2

/-- `sortBy` sorts, for any total and transitive comparator. -/
theorem sorted_sortBy {α : Type} (le : α → α → Bool)
    (htot : ∀ x y, le x y = true ∨ le y x = true)
    (htrans : ∀ x y z, le x y = true → le y z = true → le x z = true) :
    ∀ l : List α, (sortBy le l).Pairwise fun x y => le x y = true
  | [] => List.Pairwise.nil
  | a :: l => sorted_orderedInsert le htot htrans a _ (sorted_sortBy le htot htrans l)

/-- Reachability within any fuel is reflexive. -/
theorem reachesFuel_self (g : PackageGraph) : ∀ (n : Nat) (q : String),
    reachesFuel g n q q = true
  | 0, q => by simp [reachesFuel]
  | _ + 1, q => by simp [reachesFuel]

/-- One-step unfolding of `reachesFuel` at successor fuel. -/
theorem reachesFuel_succ (g : PackageGraph) (n : Nat) (q p : String) :
    reachesFuel g (n + 1) q p
      = (q == p || g.edges.any fun e => e.1 == q && reachesFuel g n e.2 p) := rfl

/-- More fuel preserves reachability. -/
theorem reachesFuel_mono (g : PackageGraph) (p : String) :
    ∀ (n : Nat) (q : String), reachesFuel g n q p = true →
      reachesFuel g (n + 1) q p = true
  | 0, q, h => by
    rw [reachesFuel_succ, Bool.or_eq_true]
    exact Or.inl h
  | n + 1, q, h => by
    rw [reachesFuel_succ] at h
    rw [reachesFuel_succ]
    simp only [Bool.or_eq_true, List.any_eq_true, Bool.and_eq_true] at h ⊢
    rcases h with h | ⟨e, he, h1, h2⟩
    · exact Or.inl h
    · exact Or.inr ⟨e, he, h1, reachesFuel_mono g p n e.2 h2⟩

/-- Monotonicity of fuel, in the large. -/
theorem reachesFuel_le (g : PackageGraph) (p : String) (m n : Nat) (hmn : m ≤ n) :
    ∀ q, reachesFuel g m q p = true → reachesFuel g n q p = true := by
  induction hmn with
  | refl => exact fun _ h => h
  | step _ ih => exact fun q hq => reachesFuel_mono g p _ q (ih q hq)

/-- Fuel-bounded reachability is sound for the path relation. -/
theorem reaches_of_reachesFuel (g : PackageGraph) (p : String) :
    ∀ (n : Nat) (q : String), reachesFuel g n q p = true → Reaches g q p
  | 0, q, h => by
    simp only [reachesFuel, beq_iff_eq] at h
    exact h ▸ Relation.ReflTransGen.refl
  | n + 1, q, h => by
    rw [reachesFuel_succ] at h
    simp only [Bool.or_eq_true, beq_iff_eq, List.any_eq_true, Bool.and_eq_true] at h
    rcases h with rfl | ⟨e, he, rfl, h2⟩
    · exact Relation.ReflTransGen.refl
    · have hstep : edgeStep g e.1 e.2 := by
        show (e.1, e.2) ∈ g.edges
        rw [Prod.mk.eta]
        exact he
      exact Relation.ReflTransGen.head hstep (reaches_of_reachesFuel g p n e.2 h2)

/-- Extend a fuel-bounded path by one edge at its end. -/
theorem reachesFuel_tail (g : PackageGraph) (p : String) :
    ∀ (n : Nat) (q b : String), reachesFuel g n q b = true → (b, p) ∈ g.edges →
      reachesFuel g (n + 1) q p = true
  | 0, q, b, h, he => by
    simp only [reachesFuel, beq_iff_eq] at h
    subst h
    rw [reachesFuel_succ]
    simp only [Bool.or_eq_true, List.any_eq_true, Bool.and_eq_true]
    exact Or.inr ⟨(q, p), he, by simp, by simp [reachesFuel]⟩
  | n + 1, q, b, h, he => by
    rw [reachesFuel_succ] at h
    rw [reachesFuel_succ]
    simp only [Bool.or_eq_true, beq_iff_eq, List.any_eq_true, Bool.and_eq_true] at h ⊢
    rcases h with rfl | ⟨e, he2, h1, h2⟩
    · exact Or.inr ⟨(q, p), he, rfl, reachesFuel_self g (n + 1) p⟩
    · exact Or.inr ⟨e, he2, h1, reachesFuel_tail g p n e.2 b h2 he⟩

/-- Completeness with existential fuel. -/
theorem exists_reachesFuel_of_reaches (g : PackageGraph) {q p : String}
    (h : Reaches g q p) : ∃ n, reachesFuel g n q p = true := by
  induction h with
  | refl => exact ⟨0, reachesFuel_self g 0 q⟩
  | tail _ hstep ih =>
    obtain ⟨n, hn⟩ := ih
    exact ⟨n + 1, reachesFuel_tail g _ n q _ hn hstep⟩

/-- One stable frontier round makes the next fuel level redundant. -/
theorem reachesFuel_step_eq (g : PackageGraph) (p : String) (n : Nat)
    (h : frontier g p n = frontier g p (n + 1)) :
    ∀ q, reachesFuel g (n + 2) q p = reachesFuel g (n + 1) q p := by
  have hpred : ∀ t ∈ g.edges.map Prod.snd,
      reachesFuel g n t p = reachesFuel g (n + 1) t p :=
    filter_eq_pred_eq _ _ _ (fun x _ hx => reachesFuel_mono g p n x hx) h
  intro q
  show (q == p || g.edges.any fun e => e.1 == q && reachesFuel g (n + 1) e.2 p)
      = (q == p || g.edges.any fun e => e.1 == q && reachesFuel g n e.2 p)
  have hany : (g.edges.any fun e => e.1 == q && reachesFuel g (n + 1) e.2 p)
      = g.edges.any fun e => e.1 == q && reachesFuel g n e.2 p := by
    apply any_congr_mem
    intro e he
    rw [hpred e.2 (List.mem_map_of_mem Prod.snd he)]
  rw [hany]

/-- Frontier stability propagates one step. -/
theorem frontier_succ_eq (g : PackageGraph) (p : String) (n : Nat)
    (h : frontier g p n = frontier g p (n + 1)) :
    frontier g p (n + 1) = frontier g p (n + 2) := by
  unfold frontier
  apply List.filter_congr
  intro x _
  exact (reachesFuel_step_eq g p n h x).symm

/-- Frontier stability propagates to all later rounds. -/
theorem frontier_stable_step (g : PackageGraph) (p : String) (n : Nat)
    (h : frontier g p n = frontier g p (n + 1)) :
    ∀ k, frontier g p (n + k) = frontier g p (n + k + 1)
  | 0 => h
  | k + 1 => frontier_succ_eq g p (n + k) (frontier_stable_step g p n h k)

/-- After a stable frontier round the reachability predicate is fixed. -/
theorem reachesFuel_stable (g : PackageGraph) (p : String) (n : Nat)
    (h : frontier g p n = frontier g p (n + 1)) :
    ∀ (k : Nat) (q : String), reachesFuel g (n + 1 + k) q p = reachesFuel g (n + 1) q p
  | 0, _ => rfl
  | k + 1, q => by
    have h1 := reachesFuel_step_eq g p (n + k) (frontier_stable_step g p n h k) q
    have e1 : n + 1 + (k + 1) = n + k + 2 := by omega
    have e2 : n + k + 1 = n + 1 + k := by omega
    rw [e1, h1, e2, reachesFuel_stable g p n h k q]

/-- The frontier stabilizes within `edges.length` rounds. -/
theorem exists_frontier_stab (g : PackageGraph) (p : String) :
    ∃ n, n ≤ g.edges.length ∧ frontier g p n = frontier g p (n + 1) := by
  by_contra hc
  push_neg at hc
  have hsub : ∀ n, List.Sublist (frontier g p n) (frontier g p (n + 1)) := fun n =>
    List.monotone_filter_right _ fun a ha => reachesFuel_mono g p n a ha
  have hlt : ∀ n, n ≤ g.edges.length →
      (frontier g p n).length < (frontier g p (n + 1)).length := by
    intro n hn
    rcases Nat.lt_or_ge (frontier g p n).length (frontier g p (n + 1)).length with h | h
    · exact h
    · exact absurd ((hsub n).eq_of_length (Nat.le_antisymm (hsub n).length_le h)) (hc n hn)
  have haux : ∀ n, n ≤ g.edges.length + 1 → n ≤ (frontier g p n).length := by
    intro n
    induction n with
    | zero => exact fun _ => Nat.zero_le _
    | succ k ih =>
      intro hk
      have h1 := ih (by omega)
      have h2 := hlt k (by omega)
      omega
  have hb2 : (frontier g p (g.edges.length + 1)).length ≤ g.edges.length := by
    have h3 : (frontier g p (g.edges.length + 1)).length ≤ (g.edges.map Prod.snd).length :=
      List.length_filter_le _ _
    simpa using h3
  have h4 := haux (g.edges.length + 1) (Nat.le_refl _)
  omega

/-- Completeness of fuel-bounded reachability at the canonical bound. -/
theorem reachesFuel_of_reaches (g : PackageGraph) {q p : String} (h : Reaches g q p) :
    reachesFuel g (g.edges.length + 1) q p = true := by
  obtain ⟨n, hn⟩ := exists_reachesFuel_of_reaches g h
  obtain ⟨k, hk, hstab⟩ := exists_frontier_stab g p
  have hbig : reachesFuel g (k + 1 + n) q p = true :=
    reachesFuel_le g p n (k + 1 + n) (by omega) q hn
  have hstable := reachesFuel_stable g p k hstab n q
  have hk1 : reachesFuel g (k + 1) q p = true := by rw [← hstable]; exact hbig
  exact reachesFuel_le g p (k + 1) (g.edges.length + 1) (by omega) q hk1

/-- Fuel-bounded reachability at the canonical bound coincides with the
path relation. -/
theorem reachesFuel_iff_reaches (g : PackageGraph) (q p : String) :
    reachesFuel g (g.edges.length + 1) q p = true ↔ Reaches g q p :=
  ⟨reaches_of_reachesFuel g p _ q, reachesFuel_of_reaches g⟩

/-- Membership in the modelled ancestor set: exactly the other graph nodes
with a path to `p`. -/
theorem mem_ancestors (g : PackageGraph) (p q : String) :
    q ∈ g.ancestors p ↔ q ∈ g.names ∧ q ≠ p ∧ Reaches g q p := by
  simp only [PackageGraph.ancestors, List.mem_filter, Bool.and_eq_true, bne_iff_ne,
    ne_eq, reachesFuel_iff_reaches, and_assoc]

/-- Claim C1: for a file that classifies as belonging to a single package
`p`, `affected_packages` returns exactly the set consisting of `p` together
with `p`'s transitive dependents (the packages of the graph with a directed
path to `p`), as a duplicate-free sequence sorted ascending by name; in
particular a package with no dependents yields just itself. -/
theorem affected_packages_package_spec (run : Run) (path : List String) (p : String)
    (hnodup : run.pkg_dep_graph.names.Nodup)
    (hpkg : File.get_package run path = .ok (some (.Package p))) :
    ∃ l, File.affected_packages run path = .ok l ∧ List.Sorted strLt l ∧
      ∀ q, q ∈ l ↔ q = p ∨ (q ∈ run.pkg_dep_graph.names ∧ q ≠ p ∧
        Reaches run.pkg_dep_graph q p) := by
  have heq : File.affected_packages run path
      = .ok (sortBy strLeb (run.pkg_dep_graph.ancestors p ++ [p])) := by
    unfold File.affected_packages
    rw [hpkg]
  refine ⟨sortBy strLeb (run.pkg_dep_graph.ancestors p ++ [p]), heq, ?_, ?_⟩
  · have hperm : List.Perm (sortBy strLeb (run.pkg_dep_graph.ancestors p ++ [p]))
        (run.pkg_dep_graph.ancestors p ++ [p]) := perm_sortBy strLeb _
    have hnodupA : (run.pkg_dep_graph.ancestors p).Nodup := hnodup.filter _
    have hpnot : p ∉ run.pkg_dep_graph.ancestors p := fun hmem =>
      ((mem_ancestors run.pkg_dep_graph p p).mp hmem).2.1 rfl
    have hnodupAll : (run.pkg_dep_graph.ancestors p ++ [p]).Nodup := by
      rw [List.nodup_append]
      exact ⟨hnodupA, List.nodup_singleton p, by
        simp only [List.disjoint_singleton]
        exact hpnot⟩
    have hsortedLe := sorted_sortBy strLeb strLeb_total strLeb_trans
      (run.pkg_dep_graph.ancestors p ++ [p])
    exact (pairwise_and' hsortedLe (hperm.nodup_iff.mpr hnodupAll)).imp fun h => h
  · intro q
    rw [(perm_sortBy strLeb _).mem_iff, List.mem_append, List.mem_singleton,
      mem_ancestors]
    tauto

/-- Claim C1 witness: a concrete three-package graph in which `b` and `c`
transitively depend on `a`; a file inside `a` yields the sorted ancestor
set together with `a` itself. -/
theorem affected_packages_package_spec_witness :
    ∃ l, File.affected_packages exRun ["repo", "pkgs", "a", "index.ts"] = .ok l ∧
      List.Sorted strLt l ∧
      ∀ q, q ∈ l ↔ q = "a" ∨ (q ∈ exRun.pkg_dep_graph.names ∧ q ≠ "a" ∧
        Reaches exRun.pkg_dep_graph q "a") :=
  affected_packages_package_spec exRun ["repo", "pkgs", "a", "index.ts"] "a"
    (by decide) rfl

/-- Claim C2: a file path that cannot be anchored under the repository root
classifies as the no-mapping outcome rather than an error (given a
successfully constructed change mapper), and its `affected_packages` is
the empty sequence. -/
theorem get_package_outside_root (run : Run) (path : List String) (cm : ChangeMapper)
    (hcm : File.mkChangeMapper run = .ok cm)
    (hanchor : anchor run.repo_root path = none) :
    File.get_package run path = .ok none ∧
    File.affected_packages run path = .ok [] := by
  have h1 : File.get_package run path = .ok none := by
    unfold File.get_package
    rw [hcm, hanchor]
  refine ⟨h1, ?_⟩
  unfold File.affected_packages
  rw [h1]

/-- Claim C2 witness: a file outside the `repo` root maps to nothing and
has no affected packages. -/
theorem get_package_outside_root_witness :
    File.get_package exRun ["elsewhere", "x.ts"] = .ok none ∧
    File.affected_packages exRun ["elsewhere", "x.ts"] = .ok [] :=
  get_package_outside_root exRun ["elsewhere", "x.ts"] ⟨exGraph, []⟩ rfl rfl

/-- Claim C3: dialect selection — a `ts` extension selects TypeScript
without markup, a `tsx` extension selects TypeScript with markup (both
with decorators enabled), and any other extension selects ECMAScript with
markup support exactly when the path has the `.jsx` ending. -/
theorem parse_file_dialect_spec (path : String) :
    (extension path = some "ts" → File.parse_file_dialect path = .typescript false true) ∧
    (extension path = some "tsx" → File.parse_file_dialect path = .typescript true true) ∧
    (extension path ≠ some "ts" → extension path ≠ some "tsx" →
      File.parse_file_dialect path = .es (ends_with path ".jsx")) := by
  refine ⟨?_, ?_, ?_⟩
  · intro h
    unfold File.parse_file_dialect
    rw [h]
    rfl
  · intro h
    unfold File.parse_file_dialect
    rw [h]
    rfl
  · intro h1 h2
    unfold File.parse_file_dialect
    have b1 : (extension path == some "ts") = false := beq_eq_false_iff_ne.mpr h1
    have b2 : (extension path == some "tsx") = false := beq_eq_false_iff_ne.mpr h2
    rw [b1, b2]
    rfl

/-- Claim C3 witness: concrete dialect selections for the four extension
shapes. -/
theorem parse_file_dialect_spec_witness :
    File.parse_file_dialect "lib/app.tsx" = .typescript true true ∧
    File.parse_file_dialect "lib/app.ts" = .typescript false true ∧
    File.parse_file_dialect "lib/app.jsx" = .es true ∧
    File.parse_file_dialect "lib/app.js" = .es false :=
  ⟨(parse_file_dialect_spec "lib/app.tsx").2.1 rfl,
   (parse_file_dialect_spec "lib/app.ts").1 rfl,
   (parse_file_dialect_spec "lib/app.jsx").2.2 (by decide) (by decide),
   (parse_file_dialect_spec "lib/app.js").2.2 (by decide) (by decide)⟩

/-- Claim C4: the file mapping returned by the dependencies query never
contains the seed file itself, for any tracer output. -/
theorem dependencies_excludes_seed {Ast : Type} (path : String)
    (trace_output : SrcTraceResult Ast) :
    ((File.dependencies path trace_output).files.all fun f => f.path != path) = true := by
  rw [List.all_eq_true]
  intro f hf
  obtain ⟨pf, hpf, rfl⟩ := List.mem_map.mp hf
  have hpf2 : pf ∈ trace_output.files.filter fun kv => kv.1 != path :=
    (perm_sortBy keyLeb _).subset hpf
  exact (List.mem_filter.mp hpf2).2

/-- Claim C4 witness: tracing from `a.ts` never reports `a.ts` itself. -/
theorem dependencies_excludes_seed_witness :
    ((File.dependencies "a.ts" exTrace).files.all fun f => f.path != "a.ts") = true :=
  dependencies_excludes_seed "a.ts" exTrace

/-- Claim C5: a file whose anchored path matches a configured
global-dependency pattern classifies as `All` with `count` equal to the
total package count of the graph, and `affected_packages` enumerates every
package name exactly once, sorted ascending. -/
theorem get_package_global_match (run : Run) (path : List String) (cm : ChangeMapper)
    (anchored : List String)
    (hcm : File.mkChangeMapper run = .ok cm)
    (hanchor : anchor run.repo_root path = some anchored)
    (hmatch : (cm.globs.any fun g => matchGlob g (joinComponents anchored)) = true)
    (hnodup : run.pkg_dep_graph.names.Nodup) :
    File.get_package run path
      = .ok (some (.All .globalDepsChanged run.pkg_dep_graph.len)) ∧
    ∃ l, File.affected_packages run path = .ok l ∧
      l.length = run.pkg_dep_graph.len ∧ List.Sorted strLt l ∧
      ∀ q, q ∈ l ↔ q ∈ run.pkg_dep_graph.names := by
  have hdet : cm.detect_package anchored = .All .globalDepsChanged := by
    unfold ChangeMapper.detect_package
    rw [if_pos hmatch]
  have h1 : File.get_package run path
      = .ok (some (.All .globalDepsChanged run.pkg_dep_graph.len)) := by
    simp only [File.get_package, hcm, hanchor, hdet]
  refine ⟨h1, sortBy strLeb run.pkg_dep_graph.names, ?_, ?_, ?_, ?_⟩
  · unfold File.affected_packages
    rw [h1]
  · rw [(perm_sortBy strLeb _).length_eq]
    simp [PackageGraph.names, PackageGraph.len]
  · have hnodup2 := (perm_sortBy strLeb run.pkg_dep_graph.names).nodup_iff.mpr hnodup
    exact (pairwise_and' (sorted_sortBy strLeb strLeb_total strLeb_trans _) hnodup2).imp
      fun h => h
  · intro q
    exact (perm_sortBy strLeb _).mem_iff

/-- Claim C5 witness: with the pattern `*` every file under the root is a
global dependency; the count is 3 and all three names are enumerated. -/
theorem get_package_global_match_witness :
    File.get_package exRunGlob ["repo", "x.ts"]
      = .ok (some (.All .globalDepsChanged exRunGlob.pkg_dep_graph.len)) ∧
    ∃ l, File.affected_packages exRunGlob ["repo", "x.ts"] = .ok l ∧
      l.length = exRunGlob.pkg_dep_graph.len ∧ List.Sorted strLt l ∧
      ∀ q, q ∈ l ↔ q ∈ exRunGlob.pkg_dep_graph.names :=
  get_package_global_match exRunGlob ["repo", "x.ts"] ⟨exGraph, [[GlobToken.star]]⟩
    ["x.ts"] rfl rfl rfl (by decide)

/-- Claim C6: classification never fails once the change mapper is
constructed — `get_package` succeeds exactly when construction succeeds,
and it returns an error exactly when construction returns that error. -/
theorem get_package_only_construction_fails (run : Run) (path : List String) :
    (File.get_package run path).isOk = (File.mkChangeMapper run).isOk ∧
    ∀ e, (File.get_package run path = .error e ↔ File.mkChangeMapper run = .error e) := by
  cases hm : File.mkChangeMapper run with
  | error e2 =>
    have hget : File.get_package run path = .error e2 := by
      simp only [File.get_package, hm]
    rw [hget]
    exact ⟨rfl, fun e =>
      ⟨fun h2 => by injection h2 with h3; rw [h3],
       fun h2 => by injection h2 with h3; rw [h3]⟩⟩
  | ok cm =>
    cases ha : anchor run.repo_root path with
    | none =>
      have hget : File.get_package run path = .ok none := by
        simp only [File.get_package, hm, ha]
      rw [hget]
      exact ⟨rfl, fun e =>
        iff_of_false (fun h2 => Except.noConfusion h2) (fun h2 => Except.noConfusion h2)⟩
    | some anchored =>
      cases hd : cm.detect_package anchored with
      | All reason =>
        have hget : File.get_package run path
            = .ok (some (.All reason run.pkg_dep_graph.len)) := by
          simp only [File.get_package, hm, ha, hd]
        rw [hget]
        exact ⟨rfl, fun e => iff_of_false (fun h2 => Except.noConfusion h2)
          (fun h2 => Except.noConfusion h2)⟩
      | Package name =>
        have hget : File.get_package run path = .ok (some (.Package name)) := by
          simp only [File.get_package, hm, ha, hd]
        rw [hget]
        exact ⟨rfl, fun e => iff_of_false (fun h2 => Except.noConfusion h2)
          (fun h2 => Except.noConfusion h2)⟩
      | None =>
        have hget : File.get_package run path = .ok none := by
          simp only [File.get_package, hm, ha, hd]
        rw [hget]
        exact ⟨rfl, fun e => iff_of_false (fun h2 => Except.noConfusion h2)
          (fun h2 => Except.noConfusion h2)⟩

/-- Claim C6 witness: on a run with an invalid global-dependency pattern
the classification error is exactly the construction error; on a valid run
both succeed. -/
theorem get_package_only_construction_fails_witness :
    ((File.get_package exRun ["repo", "x.ts"]).isOk
        = (File.mkChangeMapper exRun).isOk ∧
      ∀ e, (File.get_package exRun ["repo", "x.ts"] = .error e ↔
        File.mkChangeMapper exRun = .error e)) :=
  get_package_only_construction_fails exRun ["repo", "x.ts"]

/-- Claim C7: the trace result presents the file mapping with unique path
keys in deterministic order — sorted ascending by path — and as a
permutation of the input map's keys. -/
theorem trace_result_sorted_unique {Ast : Type} (result : SrcTraceResult Ast)
    (hkeys : (result.files.map Prod.fst).Nodup) :
    List.Sorted strLt ((TraceResult.new result).files.map File.path) ∧
    List.Perm ((TraceResult.new result).files.map File.path)
      (result.files.map Prod.fst) := by
  have hmap : (TraceResult.new result).files.map File.path
      = (sortBy keyLeb result.files).map Prod.fst := by
    show ((sortBy keyLeb result.files).map fun pf =>
        (File.new pf.1).with_ast pf.2).map File.path = _
    rw [List.map_map]
    rfl
  have hperm0 : List.Perm ((sortBy keyLeb result.files).map Prod.fst)
      (result.files.map Prod.fst) := (perm_sortBy keyLeb result.files).map Prod.fst
  constructor
  · rw [hmap]
    have hsortedLe := sorted_sortBy keyLeb
      (fun x y => strLeb_total x.1 y.1)
      (fun x y z h1 h2 => strLeb_trans x.1 y.1 z.1 h1 h2) result.files
    have hsorted2 : ((sortBy keyLeb result.files).map Prod.fst).Pairwise
        fun a b => strLeb a b = true := by
      rw [List.pairwise_map]
      exact hsortedLe
    have hnodup2 : ((sortBy keyLeb result.files).map Prod.fst).Nodup :=
      hperm0.nodup_iff.mpr hkeys
    exact (pairwise_and' hsorted2 hnodup2).imp fun h => h
  · rw [hmap]
    exact hperm0

/-- Claim C7 witness: a concrete two-entry map comes back sorted by path
and as a permutation of the input keys. -/
theorem trace_result_sorted_unique_witness :
    List.Sorted strLt ((TraceResult.new exTrace).files.map File.path) ∧
    List.Perm ((TraceResult.new exTrace).files.map File.path)
      (exTrace.files.map Prod.fst) :=
  trace_result_sorted_unique exTrace (by decide)

/-- Claim C8: the structured-error conversion — every variant carries its
rendered message; `FileNotFound` and `RootFile` expose the offending path;
`PathEncoding` exposes only the message; `Resolve` exposes the source name
as its path, the text recovered from the span, and byte offsets with the
end equal to the start plus the span length. -/
theorem trace_error_conversion_spec :
    (∀ f, TraceError.from_src (.fileNotFound f) =
      ⟨(SrcTraceError.fileNotFound f).render_message, some f, none, none, none⟩) ∧
    (TraceError.from_src .pathEncoding =
      ⟨SrcTraceError.pathEncoding.render_message, none, none, none, none⟩) ∧
    (∀ f, TraceError.from_src (.rootFile f) =
      ⟨(SrcTraceError.rootFile f).render_message, some f, none, none, none⟩) ∧
    (∀ t o n, TraceError.from_src (.resolve t o n) =
      ⟨(SrcTraceError.resolve t o n).render_message, some t.name,
        read_span t.content o n, some o, some (o + n)⟩) :=
  ⟨fun _ => rfl, rfl, fun _ => rfl, fun _ _ _ => rfl⟩

/-- Claim C8 witness: a concrete resolve error keeps the source name, the
span text and offsets with end = start + length. -/
theorem trace_error_conversion_spec_witness :
    TraceError.from_src (.resolve ⟨"a.ts", "let x = 1"⟩ 4 1) =
      ⟨(SrcTraceError.resolve ⟨"a.ts", "let x = 1"⟩ 4 1).render_message, some "a.ts",
        read_span "let x = 1" 4 1, some 4, some (4 + 1)⟩ :=
  trace_error_conversion_spec.2.2.2 ⟨"a.ts", "let x = 1"⟩ 4 1

/-- Claim C9: reading a preference is total — a missing, unreadable or
shape-invalid preferences file yields the default values: pinned-task
state `false`, task-list visibility `true`, empty active task. -/
theorem preference_reads_total_default (content : Option Json)
    (hbad : ∀ j, content = some j → decodePreferences j = none) :
    read_json content = Preferences.default ∧
    Preferences.read_pinned_task_state content = false ∧
    Preferences.read_task_list_visibility content = true ∧
    Preferences.read_active_task content = "" := by
  have h : read_json content = Preferences.default := by
    cases content with
    | none => rfl
    | some j =>
      show (match decodePreferences j with
        | none => Preferences.default
        | some p => p) = Preferences.default
      rw [hbad j rfl]
  refine ⟨h, ?_, ?_, ?_⟩ <;>
    simp [Preferences.read_pinned_task_state, Preferences.read_task_list_visibility,
      Preferences.read_active_task, h, Preferences.default]

/-- Claim C9 witness: a preferences file holding a bare string instead of
an object decodes to nothing and all three reads yield the defaults. -/
theorem preference_reads_total_default_witness :
    read_json (some (.str "oops")) = Preferences.default ∧
    Preferences.read_pinned_task_state (some (.str "oops")) = false ∧
    Preferences.read_task_list_visibility (some (.str "oops")) = true ∧
    Preferences.read_active_task (some (.str "oops")) = "" :=
  preference_reads_total_default (some (.str "oops"))
    (fun j hj => by
      injection hj with h
      rw [← h]
      rfl)

/-- Looking up the written key after `setField` finds the new value. -/
theorem lookupField_map_set (key : String) (v : Json) :
    ∀ fields : List (String × Json), (fields.any fun kv => kv.1 == key) = true →
      lookupField (fields.map fun kv => if kv.1 == key then (key, v) else kv) key
        = some v
  | [], h => by simp at h
  | kv :: rest, h => by
    by_cases hk : (kv.1 == key) = true
    · simp [lookupField, hk]
    · have h2 : (rest.any fun kv => kv.1 == key) = true := by
        simp only [List.any_cons, Bool.or_eq_true] at h
        exact h.resolve_left hk
      simp only [List.map_cons, if_neg hk, lookupField]
      exact lookupField_map_set key v rest h2

/-- Appending a fresh key makes it found last. -/
theorem lookupField_append_absent (key : String) (v : Json) :
    ∀ fields : List (String × Json), (fields.any fun kv => kv.1 == key) = false →
      lookupField (fields ++ [(key, v)]) key = some v
  | [], _ => by simp [lookupField]
  | kv :: rest, h => by
    simp only [List.any_cons, Bool.or_eq_false_iff] at h
    simp only [List.cons_append, lookupField]
    rw [if_neg (by simp [h.1])]
    exact lookupField_append_absent key v rest h.2

/-- Replacing one key leaves lookups of other keys unchanged. -/
theorem lookupField_map_set_other (key : String) (v : Json) (k : String) (hne : k ≠ key) :
    ∀ fields : List (String × Json),
      lookupField (fields.map fun kv => if kv.1 == key then (key, v) else kv) k
        = lookupField fields k
  | [] => rfl
  | kv :: rest => by
    by_cases hk : (kv.1 == key) = true
    · have h1 : kv.1 = key := eq_of_beq hk
      have h2 : (key == k) = false := beq_eq_false_iff_ne.mpr (Ne.symm hne)
      have h3 : (kv.1 == k) = false := by rw [h1]; exact h2
      simp only [List.map_cons, if_pos hk, lookupField]
      rw [if_neg (by simp [h2]), if_neg (by simp [h3])]
      exact lookupField_map_set_other key v k hne rest
    · simp only [List.map_cons, if_neg hk, lookupField]
      by_cases hkk : (kv.1 == k) = true
      · rw [if_pos hkk, if_pos hkk]
      · rw [if_neg hkk, if_neg hkk]
        exact lookupField_map_set_other key v k hne rest

/-- Appending a fresh key leaves lookups of other keys unchanged. -/
theorem lookupField_append_other (key : String) (v : Json) (k : String) (hne : k ≠ key) :
    ∀ fields : List (String × Json),
      lookupField (fields ++ [(key, v)]) k = lookupField fields k
  | [] => by
    have h2 : (key == k) = false := beq_eq_false_iff_ne.mpr (Ne.symm hne)
    simp [lookupField, h2]
  | kv :: rest => by
    simp only [List.cons_append, lookupField]
    by_cases hkk : (kv.1 == k) = true
    · rw [if_pos hkk, if_pos hkk]
    · rw [if_neg hkk, if_neg hkk]
      exact lookupField_append_other key v k hne rest

/-- `setField` sets the chosen key. -/
theorem lookupField_setField_same (fields : List (String × Json)) (key : String)
    (v : Json) : lookupField (setField fields key v) key = some v := by
  unfold setField
  by_cases h : (fields.any fun kv => kv.1 == key) = true
  · rw [if_pos h]
    exact lookupField_map_set key v fields h
  · rw [if_neg h]
    refine lookupField_append_absent key v fields ?_
    cases hx : fields.any fun kv => kv.1 == key with
    | true => exact absurd hx h
    | false => rfl

/-- `setField` leaves every other key unchanged. -/
theorem lookupField_setField_other (fields : List (String × Json)) (key : String)
    (v : Json) (k : String) (hne : k ≠ key) :
    lookupField (setField fields key v) k = lookupField fields k := by
  unfold setField
  by_cases h : (fields.any fun kv => kv.1 == key) = true
  · rw [if_pos h]
    exact lookupField_map_set_other key v k hne fields
  · rw [if_neg h]
    exact lookupField_append_other key v k hne fields

/-- Claim C10: `update_preference` changes only the JSON field named by the
given variant — every other key of the existing object is preserved
unchanged — and starting without a file it produces exactly the one
updated field. -/
theorem update_preference_frame (fields : List (String × Json))
    (field : PreferenceFields) (v : Json) :
    (∃ fields2, Preferences.update_preference (some (.obj fields)) field v
        = some (.obj fields2) ∧
      lookupField fields2 field.key = some v ∧
      ∀ k, k ≠ field.key → lookupField fields2 k = lookupField fields k) ∧
    Preferences.update_preference none field v = some (.obj [(field.key, v)]) := by
  constructor
  · refine ⟨setField fields field.key v, ?_,
      lookupField_setField_same fields field.key v,
      fun k hk => lookupField_setField_other fields field.key v k hk⟩
    cases field <;> rfl
  · cases field <;> rfl

/-- Claim C10 witness: updating the active task in a file holding one
unrelated key keeps that key and sets exactly the active-task field; with
no file the result holds exactly the one field. -/
theorem update_preference_frame_witness :
    (∃ fields2, Preferences.update_preference (some (.obj [("other", .bool true)]))
        .ActiveTask (.str "build") = some (.obj fields2) ∧
      lookupField fields2 PreferenceFields.ActiveTask.key = some (.str "build") ∧
      ∀ k, k ≠ PreferenceFields.ActiveTask.key →
        lookupField fields2 k = lookupField [("other", .bool true)] k) ∧
    Preferences.update_preference none .ActiveTask (.str "build")
      = some (.obj [(PreferenceFields.ActiveTask.key, .str "build")]) :=
  update_preference_frame [("other", .bool true)] .ActiveTask (.str "build")

end Turbo
